import Mathlib

/-!
Verification of the byte-stream primitives in src/common/io.rs of the
rsnova repository: the delimiter-scanning read future (ReadUntilSeparator),
the peekable stream wrapper (PeekableReader), the exact-peek future
(PeekExact) and the duplex composer (AsyncReadWriter).

The underlying non-blocking reader is embedded as a script: a list of
events that successive poll_read calls consume.  A chunk event delivers
its bytes (capped by the size of the destination buffer, leftover bytes
stay pending), a notReady event is a would-block, an ioError event is an
I/O failure, and an exhausted script behaves as a closed peer: every
further read reports zero bytes, which mirrors a real socket at EOF.
Loops in the source are given an explicit fuel argument; running out of
fuel is reported by a dedicated outOfFuel result, so a loop in the source
that never terminates shows up as a run that yields outOfFuel for every
fuel bound.
-/

namespace RsNova

abbrev Byte := Nat

inductive ErrKind where
  | connectionReset
  | unexpectedEof
  | wouldBlock
  | other
deriving DecidableEq

inductive ReadEvent where
  | notReady
  | chunk (data : List Byte)
  | ioError (k : ErrKind)
deriving DecidableEq

abbrev Script := List ReadEvent

inductive ReadResult where
  | notReady
  | ready (data : List Byte)
  | ioErr (k : ErrKind)
deriving DecidableEq

/-- One call of poll_read on the underlying stream, with a destination
buffer of capacity cap.  An exhausted script keeps reporting zero bytes,
as a closed socket does. -/
def pollRead (cap : Nat) : Script → ReadResult × Script
  | [] => (.ready [], [])
  | .notReady :: rest => (.notReady, rest)
  | .ioError k :: rest => (.ioErr k, rest)
  | .chunk d :: rest =>
    (.ready (d.take cap),
      if (d.drop cap).isEmpty then rest else .chunk (d.drop cap) :: rest)

/-- All data bytes a script will ever deliver, in order. -/
def scriptBytes : Script → List Byte
  | [] => []
  | .chunk d :: rest => d ++ scriptBytes rest
  | .notReady :: rest => scriptBytes rest
  | .ioError _ :: rest => scriptBytes rest

/-- Size of a script: number of events plus pending data bytes.  Each
productive read strictly decreases it. -/
def scriptMeasure : Script → Nat
  | [] => 0
  | .chunk d :: rest => 1 + d.length + scriptMeasure rest
  | .notReady :: rest => 1 + scriptMeasure rest
  | .ioError _ :: rest => 1 + scriptMeasure rest

/-- True when the script consists of data chunks only (the stream delivers
its bytes and then closes). -/
def isDataOnly : Script → Bool
  | [] => true
  | .chunk _ :: rest => isDataOnly rest
  | .notReady :: _ => false
  | .ioError _ :: _ => false

/-- The needle matches the haystack at position p. -/
def matchAt (hay needle : List Byte) (p : Nat) : Prop :=
  (hay.drop p).take needle.length = needle ∧ p + needle.length ≤ hay.length

instance (hay needle : List Byte) (p : Nat) : Decidable (matchAt hay needle p) := by
  unfold matchAt
  infer_instance

/-- Leftmost occurrence of the needle in the haystack, as computed by
twoway find_bytes in the source. -/
def findBytes : List Byte → List Byte → Option Nat
  | [], needle => if needle.length = 0 then some 0 else none
  | hay@(_ :: t), needle =>
    if hay.take needle.length = needle then some 0
    else (findBytes t needle).map (fun i => i + 1)

/-! ## ReadUntilSeparator (the delimiter-scanning read future) -/

structure RUSReading where
  separator : List Byte
  buf : List Byte
  reader : Script
deriving DecidableEq

inductive RUSState where
  | reading (st : RUSReading)
  | empty
deriving DecidableEq

inductive RUSPoll where
  | notReady
  | ready (reader : Script) (head tail : List Byte)
  | ioErr (k : ErrKind)
  | panicked
  | outOfFuel
deriving DecidableEq

/-- The loop body of ReadUntilSeparator poll: read up to 1024 bytes,
append to the accumulation buffer, fail with ConnectionReset on a zero
read, split the buffer just after the leftmost separator match when one
appears. -/
def rusLoop : Nat → List Byte → List Byte → Script → RUSPoll × RUSState
  | 0, sep, buf, reader => (.outOfFuel, .reading ⟨sep, buf, reader⟩)
  | fuel + 1, sep, buf, reader =>
    match pollRead 1024 reader with
    | (.notReady, reader2) => (.notReady, .reading ⟨sep, buf, reader2⟩)
    | (.ioErr k, reader2) => (.ioErr k, .reading ⟨sep, buf, reader2⟩)
    | (.ready data, reader2) =>
      if data.length = 0 then
        (.ioErr .connectionReset, .reading ⟨sep, buf, reader2⟩)
      else
        match findBytes (buf ++ data) sep with
        | some pos =>
          (.ready reader2 ((buf ++ data).take (pos + sep.length))
            ((buf ++ data).drop (pos + sep.length)), .empty)
        | none => rusLoop fuel sep (buf ++ data) reader2

/-- Future poll of ReadUntilSeparator: polling the Empty state panics. -/
def rusPoll (fuel : Nat) : RUSState → RUSPoll × RUSState
  | .reading st => rusLoop fuel st.separator st.buf st.reader
  | .empty => (.panicked, .empty)

def read_until_separator (a : Script) (sep : List Byte) : RUSState :=
  .reading ⟨sep, [], a⟩

/-! ## PeekableReader (the peekable stream wrapper) -/

structure PeekableReader where
  inner : Script
  peek_buf : List Byte
deriving DecidableEq

def PeekableReader.new (c : Script) : PeekableReader := ⟨c, []⟩

/-- The logical stream seen through the wrapper: the peeked bytes followed
by whatever the inner stream will still deliver. -/
def logicalStream (st : PeekableReader) : List Byte :=
  st.peek_buf ++ scriptBytes st.inner

inductive PeekPoll where
  | notReady
  | ready (n : Nat) (filled : List Byte)
  | ioErr (k : ErrKind)
  | outOfFuel
deriving DecidableEq

/-- poll_peek on a destination buffer of length blen: grow the peek
buffer by reads of the inner stream until it holds blen bytes, then copy
its first blen bytes out.  The source loops unconditionally, so the
embedding carries fuel. -/
def poll_peek : Nat → Nat → PeekableReader → PeekPoll × PeekableReader
  | 0, _, st => (.outOfFuel, st)
  | fuel + 1, blen, st =>
    if st.peek_buf.length < blen then
      match pollRead (blen - st.peek_buf.length) st.inner with
      | (.ioErr e, inner2) => (.ioErr e, ⟨inner2, st.peek_buf⟩)
      | (.notReady, inner2) => (.notReady, ⟨inner2, st.peek_buf⟩)
      | (.ready data, inner2) => poll_peek fuel blen ⟨inner2, st.peek_buf ++ data⟩
    else
      (.ready blen (st.peek_buf.take blen), st)

inductive SyncRead where
  | ok (data : List Byte)
  | ioErr (k : ErrKind)
deriving DecidableEq

/-- The Read impl of PeekableReader: serve from the head of the peek
buffer when it is nonempty, otherwise delegate to the inner stream (a
not-ready inner read surfaces as a WouldBlock error, as in the
non-blocking Read convention of the source). -/
def PeekableReader.read (st : PeekableReader) (cap : Nat) :
    SyncRead × PeekableReader :=
  if st.peek_buf.length = 0 then
    match pollRead cap st.inner with
    | (.notReady, inner2) => (.ioErr .wouldBlock, ⟨inner2, st.peek_buf⟩)
    | (.ioErr k, inner2) => (.ioErr k, ⟨inner2, st.peek_buf⟩)
    | (.ready d, inner2) => (.ok d, ⟨inner2, st.peek_buf⟩)
  else
    (.ok (st.peek_buf.take (min st.peek_buf.length cap)),
      ⟨st.inner, st.peek_buf.drop (min st.peek_buf.length cap)⟩)

/-! ## PeekExact (the exact-peek future) -/

structure PeekReading where
  a : PeekableReader
  buf : List Byte
  pos : Nat
deriving DecidableEq

inductive PeekState where
  | reading (st : PeekReading)
  | empty
deriving DecidableEq

inductive PeekExactPoll where
  | notReady
  | ok (a : PeekableReader) (buf : List Byte)
  | ioErr (a : PeekableReader) (e : ErrKind)
  | panicked
  | outOfFuel
deriving DecidableEq

/-- The while loop of PeekExact poll: peek into the unfilled suffix of
the destination buffer, advance the cursor by the reported count, treat a
zero count as unexpected EOF; on success or failure the state becomes
Empty and the wrapper is handed back, bundled with the error in the
failure case. -/
def peekExactLoop : Nat → PeekableReader → List Byte → Nat →
    PeekExactPoll × PeekState
  | 0, a, buf, pos =>
    if pos < buf.length then (.outOfFuel, .reading ⟨a, buf, pos⟩)
    else (.ok a buf, .empty)
  | fuel + 1, a, buf, pos =>
    if pos < buf.length then
      match poll_peek (fuel + 1) (buf.length - pos) a with
      | (.notReady, a2) => (.notReady, .reading ⟨a2, buf, pos⟩)
      | (.outOfFuel, a2) => (.outOfFuel, .reading ⟨a2, buf, pos⟩)
      | (.ioErr e, a2) => (.ioErr a2 e, .empty)
      | (.ready n filled, a2) =>
        if n = 0 then (.ioErr a2 .unexpectedEof, .empty)
        else
          peekExactLoop fuel a2
            (buf.take pos ++ filled ++ buf.drop (pos + n)) (pos + n)
    else (.ok a buf, .empty)

/-- Future poll of PeekExact: polling the Empty state panics. -/
def peekExactPoll (fuel : Nat) : PeekState → PeekExactPoll × PeekState
  | .reading st => peekExactLoop fuel st.a st.buf st.pos
  | .empty => (.panicked, .empty)

def peek_exact (r : Script) (buf : List Byte) : PeekState :=
  .reading ⟨PeekableReader.new r, buf, 0⟩

def peek_exact2 (r : PeekableReader) (buf : List Byte) : PeekState :=
  .reading ⟨r, buf, 0⟩

/-! ## AsyncReadWriter (the duplex composer) -/

structure AsyncReadWriter (R W : Type) where
  r : R
  w : W

def AsyncReadWriter.new {R W : Type} (a : R) (b : W) : AsyncReadWriter R W :=
  ⟨a, b⟩

def AsyncReadWriter.read {R W α : Type} (readFn : R → α × R)
    (s : AsyncReadWriter R W) : α × AsyncReadWriter R W :=
  ((readFn s.r).1, ⟨(readFn s.r).2, s.w⟩)

def AsyncReadWriter.write {R W α : Type} (writeFn : W → α × W)
    (s : AsyncReadWriter R W) : α × AsyncReadWriter R W :=
  ((writeFn s.w).1, ⟨s.r, (writeFn s.w).2⟩)

def AsyncReadWriter.flush {R W α : Type} (flushFn : W → α × W)
    (s : AsyncReadWriter R W) : α × AsyncReadWriter R W :=
  ((flushFn s.w).1, ⟨s.r, (flushFn s.w).2⟩)

def AsyncReadWriter.shutdown {R W α : Type} (shutdownFn : W → α × W)
    (s : AsyncReadWriter R W) : α × AsyncReadWriter R W :=
  ((shutdownFn s.w).1, ⟨s.r, (shutdownFn s.w).2⟩)

def AsyncReadWriter.read_buf {R W α : Type} (readBufFn : R → α × R)
    (s : AsyncReadWriter R W) : α × AsyncReadWriter R W :=
  ((readBufFn s.r).1, ⟨(readBufFn s.r).2, s.w⟩)

def AsyncReadWriter.write_buf {R W α : Type} (writeBufFn : W → α × W)
    (s : AsyncReadWriter R W) : α × AsyncReadWriter R W :=
  ((writeBufFn s.w).1, ⟨s.r, (writeBufFn s.w).2⟩)

/-! ## Operation sequences over the wrapper, for the peek-buffer invariant -/

inductive PROp where
  | peekOp (fuel k : Nat)
  | readOp (cap : Nat)

def stepOp (st : PeekableReader) : PROp → PeekableReader
  | .peekOp fuel k => (poll_peek fuel k st).2
  | .readOp cap => (PeekableReader.read st cap).2

def runOps (st : PeekableReader) : List PROp → PeekableReader
  | [] => st
  | op :: rest => runOps (stepOp st op) rest

def maxPeekReq : List PROp → Nat
  | [] => 0
  | .peekOp _ k :: rest => max k (maxPeekReq rest)
  | .readOp _ :: rest => maxPeekReq rest

/-! ## Concrete byte vectors used by the testable properties -/

def crlf2 : List Byte := [13, 10, 13, 10]

def httpReqBytes : List Byte :=
  [71, 69, 84, 32, 47, 120, 32, 72, 84, 84, 80, 47, 49, 46, 49,
   13, 10, 13, 10, 69, 88, 84, 82, 65]

def headBytes : List Byte :=
  [71, 69, 84, 32, 47, 120, 32, 72, 84, 84, 80, 47, 49, 46, 49,
   13, 10, 13, 10]

def extraBytes : List Byte := [69, 88, 84, 82, 65]

def noTermBytes : List Byte :=
  [110, 111, 45, 116, 101, 114, 109, 105, 110, 97, 116, 111, 114,
   45, 104, 101, 114, 101]

def byteByByteScript : Script := httpReqBytes.map (fun b => .chunk [b])

/-! ## Basic facts about the stream model -/

theorem pollRead_ready_length {cap : Nat} {s s2 : Script} {d : List Byte}
    (h : pollRead cap s = (.ready d, s2)) : d.length ≤ cap := by
  cases s with
  | nil =>
    simp only [pollRead] at h
    injection h with h1 h2
    injection h1 with h1
    rw [← h1]
    simp
  | cons e rest =>
    cases e with
    | notReady => simp [pollRead] at h
    | ioError k => simp [pollRead] at h
    | chunk dd =>
      simp only [pollRead] at h
      injection h with h1 h2
      injection h1 with h1
      rw [← h1]
      exact List.length_take_le cap dd

theorem pollRead_bytes {cap : Nat} {s s2 : Script} {d : List Byte}
    (h : pollRead cap s = (.ready d, s2)) :
    scriptBytes s = d ++ scriptBytes s2 := by
  cases s with
  | nil =>
    simp only [pollRead] at h
    injection h with h1 h2
    injection h1 with h1
    rw [← h1, ← h2]
    rfl
  | cons e rest =>
    cases e with
    | notReady => simp [pollRead] at h
    | ioError k => simp [pollRead] at h
    | chunk dd =>
      simp only [pollRead] at h
      by_cases hemp : (dd.drop cap).isEmpty = true
      · rw [if_pos hemp] at h
        injection h with h1 h2
        injection h1 with h1
        subst h2
        have hdrop : dd.drop cap = [] := List.isEmpty_iff.mp hemp
        have hdd : dd = d := by
          rw [← h1]
          conv_lhs => rw [← List.take_append_drop cap dd]
          rw [hdrop, List.append_nil]
        simp only [scriptBytes]
        rw [hdd]
      · rw [if_neg hemp] at h
        injection h with h1 h2
        injection h1 with h1
        subst h2
        simp only [scriptBytes]
        rw [← h1, ← List.append_assoc, List.take_append_drop]

theorem pollRead_measure {cap : Nat} {s s2 : Script} {d : List Byte}
    (h : pollRead cap s = (.ready d, s2)) (hd : d ≠ []) :
    scriptMeasure s2 < scriptMeasure s := by
  cases s with
  | nil =>
    simp only [pollRead] at h
    rw [Prod.mk.injEq, ReadResult.ready.injEq] at h
    exact absurd h.1.symm hd
  | cons e rest =>
    cases e with
    | notReady => simp [pollRead] at h
    | ioError k => simp [pollRead] at h
    | chunk dd =>
      simp only [pollRead] at h
      by_cases hemp : (dd.drop cap).isEmpty = true
      · rw [if_pos hemp] at h
        injection h with h1 h2
        subst h2
        simp only [scriptMeasure]
        omega
      · rw [if_neg hemp] at h
        injection h with h1 h2
        injection h1 with h1
        subst h2
        have hcap : 0 < cap := by
          by_contra hc
          push_neg at hc
          have hc0 : cap = 0 := by omega
          subst hc0
          simp at h1
          exact hd h1
        have hlen : cap < dd.length := by
          by_contra hc
          push_neg at hc
          exact hemp (by simp [List.drop_eq_nil_of_le hc])
        simp only [scriptMeasure, List.length_drop]
        omega

theorem pollRead_dataOnly {cap : Nat} {s s2 : Script} {r : ReadResult}
    (h : pollRead cap s = (r, s2)) (hs : isDataOnly s = true) :
    isDataOnly s2 = true := by
  cases s with
  | nil =>
    simp only [pollRead] at h
    injection h with h1 h2
    rw [← h2]
    rfl
  | cons e rest =>
    cases e with
    | notReady => simp [isDataOnly] at hs
    | ioError k => simp [isDataOnly] at hs
    | chunk dd =>
      simp only [pollRead] at h
      injection h with h1 h2
      have hrest : isDataOnly rest = true := by
        simpa only [isDataOnly] using hs
      by_cases hemp : (dd.drop cap).isEmpty = true
      · rw [if_pos hemp] at h2
        rw [← h2]
        exact hrest
      · rw [if_neg hemp] at h2
        rw [← h2]
        simpa only [isDataOnly] using hrest

theorem pollRead_dataOnly_ready (cap : Nat) {s : Script}
    (hs : isDataOnly s = true) :
    ∃ d s2, pollRead cap s = (.ready d, s2) := by
  cases s with
  | nil => exact ⟨[], [], rfl⟩
  | cons e rest =>
    cases e with
    | notReady => simp [isDataOnly] at hs
    | ioError k => simp [isDataOnly] at hs
    | chunk dd => exact ⟨dd.take cap, _, rfl⟩

/-! ## Facts about findBytes: it reports the leftmost match -/

theorem findBytes_some_matchAt {hay needle : List Byte} {p : Nat}
    (h : findBytes hay needle = some p) : matchAt hay needle p := by
  induction hay generalizing p with
  | nil =>
    simp [findBytes] at h
    obtain ⟨hlen, hp⟩ := h
    subst hlen
    refine ⟨by simp, ?_⟩
    simp only [List.length_nil]
    omega
  | cons a t ih =>
    rw [findBytes] at h
    by_cases hpre : (a :: t).take needle.length = needle
    · simp [hpre] at h
      subst h
      constructor
      · simpa using hpre
      · have hle : needle.length ≤ (a :: t).length := by
          conv_lhs => rw [← hpre]
          rw [List.length_take]
          exact min_le_right _ _
        omega
    · simp [hpre] at h
      obtain ⟨q, hq, hp⟩ := h
      subst hp
      obtain ⟨ht1, ht2⟩ := ih hq
      constructor
      · simpa using ht1
      · simp
        omega

theorem findBytes_some_leftmost {hay needle : List Byte} {p : Nat}
    (h : findBytes hay needle = some p) :
    ∀ q, q < p → ¬ matchAt hay needle q := by
  induction hay generalizing p with
  | nil =>
    simp [findBytes] at h
    obtain ⟨hlen, hp⟩ := h
    intro q hq hm
    omega
  | cons a t ih =>
    rw [findBytes] at h
    by_cases hpre : (a :: t).take needle.length = needle
    · simp [hpre] at h
      intro q hq hm
      omega
    · simp [hpre] at h
      obtain ⟨q0, hq0, hp⟩ := h
      subst hp
      intro q hq hm
      cases q with
      | zero =>
        exact hpre (by simpa using hm.1)
      | succ q1 =>
        have hm' : matchAt t needle q1 := by
          obtain ⟨hm1, hm2⟩ := hm
          constructor
          · simpa using hm1
          · simp at hm2
            omega
        exact ih hq0 q1 (by omega) hm'

theorem findBytes_none_no_match {hay needle : List Byte}
    (h : findBytes hay needle = none) : ∀ q, ¬ matchAt hay needle q := by
  induction hay with
  | nil =>
    intro q hm
    by_cases hn : needle.length = 0
    · rw [findBytes, if_pos hn] at h
      exact Option.noConfusion h
    · obtain ⟨hm1, hm2⟩ := hm
      simp only [List.length_nil] at hm2
      omega
  | cons a t ih =>
    rw [findBytes] at h
    by_cases hpre : (a :: t).take needle.length = needle
    · simp [hpre] at h
    · simp [hpre] at h
      intro q hm
      cases q with
      | zero => exact hpre (by simpa using hm.1)
      | succ q1 =>
        refine ih h q1 ⟨by simpa using hm.1, ?_⟩
        have := hm.2
        simp at this
        omega

theorem matchAt_append {a b needle : List Byte} {q : Nat}
    (h : matchAt a needle q) : matchAt (a ++ b) needle q := by
  obtain ⟨h1, h2⟩ := h
  constructor
  · rw [List.drop_append_of_le_length (by omega)]
    rw [List.take_append_of_le_length (by simp; omega)]
    exact h1
  · simp
    omega

theorem findBytes_none_of_append {a b needle : List Byte}
    (h : findBytes (a ++ b) needle = none) : findBytes a needle = none := by
  cases hfa : findBytes a needle with
  | none => rfl
  | some p =>
    exact absurd (matchAt_append (findBytes_some_matchAt hfa))
      (findBytes_none_no_match h p)

theorem pollRead_bytes_notReady {cap : Nat} {s s2 : Script}
    (h : pollRead cap s = (.notReady, s2)) : scriptBytes s = scriptBytes s2 := by
  cases s with
  | nil => simp [pollRead] at h
  | cons e rest =>
    cases e with
    | notReady =>
      simp only [pollRead] at h
      injection h with h1 h2
      rw [← h2]
      rfl
    | ioError k => simp [pollRead] at h
    | chunk dd =>
      simp only [pollRead] at h
      injection h with h1 h2
      exact absurd h1 (by simp)

theorem pollRead_bytes_ioErr {cap : Nat} {s s2 : Script} {k : ErrKind}
    (h : pollRead cap s = (.ioErr k, s2)) : scriptBytes s = scriptBytes s2 := by
  cases s with
  | nil => simp [pollRead] at h
  | cons e rest =>
    cases e with
    | notReady => simp [pollRead] at h
    | ioError k2 =>
      simp only [pollRead] at h
      injection h with h1 h2
      rw [← h2]
      rfl
    | chunk dd =>
      simp only [pollRead] at h
      injection h with h1 h2
      exact absurd h1 (by simp)

/-! ## Facts about poll_peek -/

theorem poll_peek_extends (fuel blen : Nat) (st : PeekableReader) :
    st.peek_buf <+: (poll_peek fuel blen st).2.peek_buf := by
  induction fuel generalizing st with
  | zero => exact List.prefix_rfl
  | succ fuel ih =>
    rw [poll_peek]
    by_cases hlt : st.peek_buf.length < blen
    · rw [if_pos hlt]
      rcases hpr : pollRead (blen - st.peek_buf.length) st.inner with ⟨res, inner2⟩
      cases res with
      | ioErr e => simp [hpr]
      | notReady => simp [hpr]
      | ready dt =>
        simp only [hpr]
        exact List.IsPrefix.trans (List.prefix_append _ _)
          (ih ⟨inner2, st.peek_buf ++ dt⟩)
    · rw [if_neg hlt]

theorem poll_peek_bound (fuel blen : Nat) (st : PeekableReader) :
    (poll_peek fuel blen st).2.peek_buf.length ≤ max st.peek_buf.length blen := by
  induction fuel generalizing st with
  | zero => simp [poll_peek]
  | succ fuel ih =>
    rw [poll_peek]
    by_cases hlt : st.peek_buf.length < blen
    · rw [if_pos hlt]
      rcases hpr : pollRead (blen - st.peek_buf.length) st.inner with ⟨res, inner2⟩
      cases res with
      | ioErr e =>
        simp only [hpr]
        exact le_max_left _ _
      | notReady =>
        simp only [hpr]
        exact le_max_left _ _
      | ready dt =>
        simp only [hpr]
        have hlen := pollRead_ready_length hpr
        have hrec := ih ⟨inner2, st.peek_buf ++ dt⟩
        simp only [List.length_append] at hrec
        omega
    · rw [if_neg hlt]
      exact le_max_left _ _

theorem poll_peek_logical (fuel blen : Nat) (st : PeekableReader) :
    logicalStream (poll_peek fuel blen st).2 = logicalStream st := by
  induction fuel generalizing st with
  | zero => rfl
  | succ fuel ih =>
    rw [poll_peek]
    by_cases hlt : st.peek_buf.length < blen
    · rw [if_pos hlt]
      rcases hpr : pollRead (blen - st.peek_buf.length) st.inner with ⟨res, inner2⟩
      cases res with
      | ioErr e =>
        simp only [hpr, logicalStream]
        rw [← pollRead_bytes_ioErr hpr]
      | notReady =>
        simp only [hpr, logicalStream]
        rw [← pollRead_bytes_notReady hpr]
      | ready dt =>
        simp only [hpr]
        rw [ih ⟨inner2, st.peek_buf ++ dt⟩]
        simp only [logicalStream]
        rw [List.append_assoc, ← pollRead_bytes hpr]
    · rw [if_neg hlt]

theorem poll_peek_ready {fuel blen : Nat} {st st2 : PeekableReader} {n : Nat}
    {out : List Byte} (h : poll_peek fuel blen st = (.ready n out, st2)) :
    n = blen ∧ out = st2.peek_buf.take blen ∧ blen ≤ st2.peek_buf.length := by
  induction fuel generalizing st with
  | zero =>
    rw [poll_peek] at h
    simp at h
  | succ fuel ih =>
    rw [poll_peek] at h
    by_cases hlt : st.peek_buf.length < blen
    · rw [if_pos hlt] at h
      rcases hpr : pollRead (blen - st.peek_buf.length) st.inner with ⟨res, inner2⟩
      rw [hpr] at h
      cases res with
      | ioErr e => simp at h
      | notReady => simp at h
      | ready dt => exact ih h
    · rw [if_neg hlt] at h
      rw [Prod.mk.injEq, PeekPoll.ready.injEq] at h
      obtain ⟨⟨hn, hout⟩, hst⟩ := h
      subst hst
      exact ⟨hn.symm, hout.symm, by omega⟩

theorem poll_peek_already {fuel blen : Nat} {st : PeekableReader}
    (h : blen ≤ st.peek_buf.length) :
    poll_peek (fuel + 1) blen st = (.ready blen (st.peek_buf.take blen), st) := by
  rw [poll_peek, if_neg (by omega)]

/-! ## Terminal states empty the futures -/

theorem rusLoop_ready_state {fuel : Nat} {sep buf : List Byte} {rd r : Script}
    {hb tb : List Byte} {st : RUSState}
    (h : rusLoop fuel sep buf rd = (.ready r hb tb, st)) : st = RUSState.empty := by
  induction fuel generalizing buf rd with
  | zero =>
    rw [rusLoop] at h
    simp at h
  | succ fuel ih =>
    rw [rusLoop] at h
    rcases hpr : pollRead 1024 rd with ⟨res, rd2⟩
    rw [hpr] at h
    cases res with
    | notReady => simp at h
    | ioErr k => simp at h
    | ready data =>
      by_cases hz : data.length = 0
      · simp only [if_pos hz] at h
        simp at h
      · simp only [if_neg hz] at h
        rcases hfb : findBytes (buf ++ data) sep with _ | pos
        · rw [hfb] at h
          exact ih h
        · rw [hfb] at h
          rw [Prod.mk.injEq] at h
          exact h.2.symm

theorem peekExactLoop_ok_state {fuel : Nat} {a : PeekableReader}
    {buf : List Byte} {pos : Nat} {x : PeekableReader} {y : List Byte}
    {st : PeekState} (h : peekExactLoop fuel a buf pos = (.ok x y, st)) :
    st = PeekState.empty := by
  induction fuel generalizing a buf pos with
  | zero =>
    rw [peekExactLoop] at h
    by_cases hlt : pos < buf.length
    · rw [if_pos hlt] at h
      simp at h
    · rw [if_neg hlt] at h
      rw [Prod.mk.injEq] at h
      exact h.2.symm
  | succ fuel ih =>
    rw [peekExactLoop] at h
    by_cases hlt : pos < buf.length
    · rw [if_pos hlt] at h
      rcases hpp : poll_peek (fuel + 1) (buf.length - pos) a with ⟨res, a2⟩
      rw [hpp] at h
      cases res with
      | notReady => simp at h
      | outOfFuel => simp at h
      | ioErr e => simp at h
      | ready n filled =>
        by_cases hz : n = 0
        · simp only [if_pos hz] at h
          simp at h
        · simp only [if_neg hz] at h
          exact ih h
    · rw [if_neg hlt] at h
      rw [Prod.mk.injEq] at h
      exact h.2.symm

theorem peekExactLoop_err_state {fuel : Nat} {a : PeekableReader}
    {buf : List Byte} {pos : Nat} {x : PeekableReader} {e : ErrKind}
    {st : PeekState} (h : peekExactLoop fuel a buf pos = (.ioErr x e, st)) :
    st = PeekState.empty := by
  induction fuel generalizing a buf pos with
  | zero =>
    rw [peekExactLoop] at h
    by_cases hlt : pos < buf.length
    · rw [if_pos hlt] at h
      simp at h
    · rw [if_neg hlt] at h
      simp at h
  | succ fuel ih =>
    rw [peekExactLoop] at h
    by_cases hlt : pos < buf.length
    · rw [if_pos hlt] at h
      rcases hpp : poll_peek (fuel + 1) (buf.length - pos) a with ⟨res, a2⟩
      rw [hpp] at h
      cases res with
      | notReady => simp at h
      | outOfFuel => simp at h
      | ioErr e2 =>
        rw [Prod.mk.injEq] at h
        exact h.2.symm
      | ready n filled =>
        by_cases hz : n = 0
        · simp only [if_pos hz] at h
          rw [Prod.mk.injEq] at h
          exact h.2.symm
        · simp only [if_neg hz] at h
          exact ih h
    · rw [if_neg hlt] at h
      simp at h

/-! ## Claim C1: exact-peek at early EOF -/

theorem poll_peek_stuck (fuel : Nat) :
    poll_peek fuel 2 ⟨[], [97]⟩ = (.outOfFuel, ⟨[], [97]⟩) := by
  induction fuel with
  | zero => rfl
  | succ fuel ih => exact ih

theorem peekExactLoop_outOfFuel (fuel : Nat) (a a2 : PeekableReader)
    (buf : List Byte) (pos : Nat) (hlt : pos < buf.length)
    (hpp : poll_peek (fuel + 1) (buf.length - pos) a = (.outOfFuel, a2)) :
    peekExactLoop (fuel + 1) a buf pos =
      (.outOfFuel, .reading ⟨a2, buf, pos⟩) := by
  rw [peekExactLoop, if_pos hlt, hpp]

/-- Claim C1: over a stream that delivers one byte and then hits EOF, an
exact-peek for two bytes never reaches any terminal result: for every fuel
bound the run is still spinning (the source loops forever re-reading zero
bytes), so in particular it never fails with the unexpected-end-of-stream
kind, contrary to the claim and to the doc comment of peek_exact. -/
theorem C1_peek_exact_eof_diverges (fuel : Nat) :
    (peekExactPoll fuel (peek_exact [ReadEvent.chunk [97]] [0, 0])).1 =
      PeekExactPoll.outOfFuel := by
  cases fuel with
  | zero => rfl
  | succ fuel =>
    have h1 : poll_peek (fuel + 1) (([0, 0] : List Byte).length - 0)
        ⟨[ReadEvent.chunk [97]], []⟩ = (PeekPoll.outOfFuel, ⟨[], [97]⟩) :=
      poll_peek_stuck fuel
    have h2 := peekExactLoop_outOfFuel fuel ⟨[ReadEvent.chunk [97]], []⟩
      ⟨[], [97]⟩ [0, 0] 0 (by decide) h1
    show (peekExactLoop (fuel + 1) ⟨[ReadEvent.chunk [97]], []⟩ [0, 0] 0).1 = _
    rw [h2]

/-! ## Claim C3: EOF before the delimiter is a connection reset -/

/-- Claim C3: if the stream delivers only data chunks and then closes, and
the separator never occurs in the initial buffer followed by everything the
stream delivers, the delimiter scan fails with the connection-reset kind
(and, the result being a bare ioErr, yields no head or tail). -/
theorem C3_eof_connection_reset :
    ∀ (fuel : Nat) (sep buf : List Byte) (rd : Script),
    isDataOnly rd = true →
    findBytes (buf ++ scriptBytes rd) sep = none →
    scriptMeasure rd < fuel →
    (rusLoop fuel sep buf rd).1 = RUSPoll.ioErr ErrKind.connectionReset := by
  intro fuel
  induction fuel with
  | zero =>
    intro sep buf rd _ _ hfuel
    omega
  | succ fuel ih =>
    intro sep buf rd hdata hnone hfuel
    obtain ⟨data, rd2, hpr⟩ := pollRead_dataOnly_ready 1024 hdata
    rw [rusLoop]
    simp only [hpr]
    by_cases hz : data.length = 0
    · rw [if_pos hz]
    · rw [if_neg hz]
      have hbytes := pollRead_bytes hpr
      have hnone2 : findBytes ((buf ++ data) ++ scriptBytes rd2) sep = none := by
        rw [List.append_assoc, ← hbytes]
        exact hnone
      have hfb : findBytes (buf ++ data) sep = none :=
        findBytes_none_of_append hnone2
      simp only [hfb]
      have hdne : data ≠ [] := by
        intro hc
        subst hc
        simp at hz
      have hm := pollRead_measure hpr hdne
      exact ih sep (buf ++ data) rd2 (pollRead_dataOnly hpr hdata) hnone2
        (by omega)

/-- Witness for C3: the testable property of the spec, with the input
bytes of no-terminator-here delivered as one chunk and the stream then
closing, fails with the connection-reset kind. -/
theorem C3_witness :
    isDataOnly [ReadEvent.chunk noTermBytes] = true ∧
    findBytes ([] ++ scriptBytes [ReadEvent.chunk noTermBytes]) crlf2 = none ∧
    scriptMeasure [ReadEvent.chunk noTermBytes] < 20 ∧
    (rusLoop 20 crlf2 [] [ReadEvent.chunk noTermBytes]).1 =
      RUSPoll.ioErr ErrKind.connectionReset :=
  ⟨by decide, by decide, by decide,
    C3_eof_connection_reset 20 crlf2 [] [ReadEvent.chunk noTermBytes]
      (by decide) (by decide) (by decide)⟩

/-! ## Claim C10: a zero-length destination buffer -/

/-- Claim C10: an exact-peek with a zero-length destination buffer
resolves successfully at once, for any stream and any fuel (even zero
fuel, i.e. without a single read being attempted), handing back the
untouched wrapper and the empty buffer. -/
theorem C10_zero_length_peek (fuel : Nat) (r : Script) :
    peekExactPoll fuel (peek_exact r []) =
      (.ok (PeekableReader.new r) [], PeekState.empty) := by
  cases fuel with
  | zero => rfl
  | succ fuel => rfl

/-! ## Claim C4: single-use enforcement -/

def c4Script : Script := [.ioError .other, .chunk (97 :: crlf2)]

/-- Counterexample for C4: after ReadUntilSeparator has failed (a terminal
state), polling it again does not panic: the Err return leaves the state
as Reading, so a second poll silently resumes reading and even resolves
with a fresh ready result. -/
theorem C4_counterexample :
    (rusPoll 5 (read_until_separator c4Script crlf2)).1 =
      RUSPoll.ioErr ErrKind.other ∧
    (rusPoll 5 (rusPoll 5 (read_until_separator c4Script crlf2)).2).1 =
      RUSPoll.ready [] (97 :: crlf2) [] ∧
    (rusPoll 5 (rusPoll 5 (read_until_separator c4Script crlf2)).2).1 ≠
      RUSPoll.panicked := by
  refine ⟨by decide, by decide, by decide⟩

/-- Claim C4 (amended): polling either future in its Empty state panics;
a successful resolution of ReadUntilSeparator and both terminal results of
PeekExact leave the future Empty, so any later poll after those panics.
(After a ReadUntilSeparator failure the state stays Reading and a later
poll does not panic: see the counterexample.) -/
theorem C4_single_use :
    (∀ fuel, (rusPoll fuel RUSState.empty).1 = RUSPoll.panicked) ∧
    (∀ fuel, (peekExactPoll fuel PeekState.empty).1 = PeekExactPoll.panicked) ∧
    (∀ f1 f2 st r hb tb st2, rusPoll f1 st = (.ready r hb tb, st2) →
      (rusPoll f2 st2).1 = RUSPoll.panicked) ∧
    (∀ f1 f2 st x y st2, peekExactPoll f1 st = (.ok x y, st2) →
      (peekExactPoll f2 st2).1 = PeekExactPoll.panicked) ∧
    (∀ f1 f2 st x e st2, peekExactPoll f1 st = (.ioErr x e, st2) →
      (peekExactPoll f2 st2).1 = PeekExactPoll.panicked) := by
  refine ⟨fun fuel => rfl, fun fuel => rfl, ?_, ?_, ?_⟩
  · intro f1 f2 st r hb tb st2 h
    cases st with
    | reading rst =>
      have hst := rusLoop_ready_state
        (show rusLoop f1 rst.separator rst.buf rst.reader = (.ready r hb tb, st2)
          from h)
      subst hst
      rfl
    | empty => simp [rusPoll] at h
  · intro f1 f2 st x y st2 h
    cases st with
    | reading pst =>
      have hst := peekExactLoop_ok_state
        (show peekExactLoop f1 pst.a pst.buf pst.pos = (.ok x y, st2) from h)
      subst hst
      rfl
    | empty => simp [peekExactPoll] at h
  · intro f1 f2 st x e st2 h
    cases st with
    | reading pst =>
      have hst := peekExactLoop_err_state
        (show peekExactLoop f1 pst.a pst.buf pst.pos = (.ioErr x e, st2) from h)
      subst hst
      rfl
    | empty => simp [peekExactPoll] at h

/-- Witness for C4: concrete resolved runs of both futures; polling again
after a ready, ok or ioErr resolution (and polling Empty directly) panics. -/
theorem C4_witness :
    (rusPoll 1 RUSState.empty).1 = RUSPoll.panicked ∧
    (peekExactPoll 1 PeekState.empty).1 = PeekExactPoll.panicked ∧
    (rusPoll 1 (rusPoll 3 (read_until_separator [ReadEvent.chunk crlf2] crlf2)).2).1 =
      RUSPoll.panicked ∧
    (peekExactPoll 1 (peekExactPoll 3 (peek_exact [ReadEvent.chunk [97]] [0])).2).1 =
      PeekExactPoll.panicked ∧
    (peekExactPoll 1
        (peekExactPoll 3 (peek_exact [ReadEvent.ioError ErrKind.other] [0])).2).1 =
      PeekExactPoll.panicked :=
  ⟨C4_single_use.1 1, C4_single_use.2.1 1,
    C4_single_use.2.2.1 3 1 (read_until_separator [ReadEvent.chunk crlf2] crlf2)
      [] crlf2 []
      (rusPoll 3 (read_until_separator [ReadEvent.chunk crlf2] crlf2)).2
      (by decide),
    C4_single_use.2.2.2.1 3 1 (peek_exact [ReadEvent.chunk [97]] [0])
      ⟨[], [97]⟩ [97]
      (peekExactPoll 3 (peek_exact [ReadEvent.chunk [97]] [0])).2
      (by decide),
    C4_single_use.2.2.2.2 3 1 (peek_exact [ReadEvent.ioError ErrKind.other] [0])
      ⟨[], []⟩ ErrKind.other
      (peekExactPoll 3 (peek_exact [ReadEvent.ioError ErrKind.other] [0])).2
      (by decide)⟩

/-! ## Claim C5: resources handed back on failure -/

/-- Counterexample for C5: two delimiter-scan runs over different streams
and with different accumulated buffers fail with literally the same bare
result value, so the delimiter-scan error cannot carry the stream or the
accumulated buffer back to the caller; in particular no failing run
returns a ready result holding those resources. -/
theorem C5_counterexample :
    (rusPoll 3 (read_until_separator [] crlf2)).1 =
      (rusPoll 3 (read_until_separator
        [ReadEvent.chunk [97], ReadEvent.chunk []] crlf2)).1 ∧
    (rusPoll 3 (read_until_separator [] crlf2)).1 =
      RUSPoll.ioErr ErrKind.connectionReset ∧
    ∀ r hb tb, (rusPoll 3 (read_until_separator [] crlf2)).1 ≠
      RUSPoll.ready r hb tb := by
  refine ⟨by decide, by decide, ?_⟩
  intro r hb tb
  have h : (rusPoll 3 (read_until_separator [] crlf2)).1 =
      RUSPoll.ioErr ErrKind.connectionReset := by decide
  rw [h]
  simp

/-- Claim C5 (amended): underlying I/O errors are propagated verbatim by
both operations, never swallowed; a PeekExact failure hands ownership of
the wrapper (with every byte peeked so far intact) back together with the
error and empties the future, while a ReadUntilSeparator failure returns
the bare error only, the stream and accumulated buffer staying inside the
future state. -/
theorem C5_amended :
    (∀ fuel sep buf k rest,
      rusPoll (fuel + 1) (RUSState.reading ⟨sep, buf, .ioError k :: rest⟩) =
        (.ioErr k, RUSState.reading ⟨sep, buf, rest⟩)) ∧
    (∀ (fuel : Nat) (pk : List Byte) (rest : Script) (buf : List Byte)
        (pos : Nat) (k : ErrKind), pos < buf.length →
      pk.length < buf.length - pos →
      peekExactPoll (fuel + 1)
          (PeekState.reading ⟨⟨.ioError k :: rest, pk⟩, buf, pos⟩) =
        (.ioErr ⟨rest, pk⟩ k, PeekState.empty)) := by
  constructor
  · intro fuel sep buf k rest
    rfl
  · intro fuel pk rest buf pos k hlt hpk
    show peekExactLoop (fuel + 1) ⟨.ioError k :: rest, pk⟩ buf pos = _
    have hpp : poll_peek (fuel + 1) (buf.length - pos) ⟨.ioError k :: rest, pk⟩ =
        (.ioErr k, ⟨rest, pk⟩) := by
      rw [poll_peek, if_pos hpk]
      rfl
    rw [peekExactLoop, if_pos hlt, hpp]

/-- Witness for C5: a concrete ioError event propagates verbatim through
both operations; the PeekExact failure carries the wrapper with its peeked
byte intact, the ReadUntilSeparator failure carries only the error kind. -/
theorem C5_witness :
    rusPoll 1 (RUSState.reading ⟨crlf2, [97],
        [ReadEvent.ioError ErrKind.other, ReadEvent.chunk [98]]⟩) =
      (RUSPoll.ioErr ErrKind.other,
        RUSState.reading ⟨crlf2, [97], [ReadEvent.chunk [98]]⟩) ∧
    peekExactPoll 1 (PeekState.reading
        ⟨⟨[ReadEvent.ioError ErrKind.other], [99]⟩, [0, 0, 0], 1⟩) =
      (PeekExactPoll.ioErr ⟨[], [99]⟩ ErrKind.other, PeekState.empty) :=
  ⟨C5_amended.1 0 crlf2 [97] ErrKind.other [ReadEvent.chunk [98]],
    C5_amended.2 0 [99] [] [0, 0, 0] 1 ErrKind.other (by decide) (by decide)⟩

/-! ## Claim C2: the delimiter split -/

/-- Claim C2 (amended): whenever the delimiter scan resolves with a ready
result, the head and tail are exactly the split of the accumulated bytes
at pos plus the separator length, where pos is the leftmost separator
match in the accumulated bytes; the accumulated bytes extend the initial
buffer and form a prefix of the initial buffer followed by the full byte
stream.  (The accumulated bytes can stop short of the full input: whatever
the stream delivers after the read that completes the delimiter is never
read, see the byte-by-byte counterexample.) -/
theorem C2_delimiter_split :
    ∀ (fuel : Nat) (sep buf0 : List Byte) (rd : Script) (r : Script)
      (hb tb : List Byte) (st : RUSState),
    rusLoop fuel sep buf0 rd = (.ready r hb tb, st) →
    ∃ pos,
      findBytes (hb ++ tb) sep = some pos ∧
      hb = (hb ++ tb).take (pos + sep.length) ∧
      tb = (hb ++ tb).drop (pos + sep.length) ∧
      matchAt (hb ++ tb) sep pos ∧
      (∀ q, q < pos → ¬ matchAt (hb ++ tb) sep q) ∧
      (∃ d, hb ++ tb = buf0 ++ d) ∧
      (∃ ext, (hb ++ tb) ++ ext = buf0 ++ scriptBytes rd) := by
  intro fuel
  induction fuel with
  | zero =>
    intro sep buf0 rd r hb tb st h
    rw [rusLoop] at h
    simp at h
  | succ fuel ih =>
    intro sep buf0 rd r hb tb st h
    rw [rusLoop] at h
    rcases hpr : pollRead 1024 rd with ⟨res, rd2⟩
    rw [hpr] at h
    cases res with
    | notReady => simp at h
    | ioErr k => simp at h
    | ready data =>
      by_cases hz : data.length = 0
      · simp only [if_pos hz] at h
        simp at h
      · simp only [if_neg hz] at h
        rcases hfb : findBytes (buf0 ++ data) sep with _ | pos
        · rw [hfb] at h
          obtain ⟨pos, hfind, hhead, htail, hmatch, hleft, ⟨d, hd⟩, ⟨ext, hext⟩⟩ :=
            ih sep (buf0 ++ data) rd2 r hb tb st h
          refine ⟨pos, hfind, hhead, htail, hmatch, hleft,
            ⟨data ++ d, ?_⟩, ⟨ext, ?_⟩⟩
          · rw [hd, List.append_assoc]
          · rw [hext, pollRead_bytes hpr, List.append_assoc]
        · rw [hfb] at h
          rw [Prod.mk.injEq, RUSPoll.ready.injEq] at h
          obtain ⟨⟨hr, hh, ht⟩, hst⟩ := h
          have hht : hb ++ tb = buf0 ++ data := by
            rw [← hh, ← ht, List.take_append_drop]
          refine ⟨pos, ?_, ?_, ?_, ?_, ?_, ⟨data, hht⟩, ⟨scriptBytes rd2, ?_⟩⟩
          · rw [hht]
            exact hfb
          · rw [hht]
            exact hh.symm
          · rw [hht]
            exact ht.symm
          · rw [hht]
            exact findBytes_some_matchAt hfb
          · intro q hq
            rw [hht]
            exact findBytes_some_leftmost hfb q hq
          · rw [hht, pollRead_bytes hpr, List.append_assoc]

/-- Counterexample for C2: with the input delivered byte by byte, the scan
stops at the read that completes the delimiter, so the tail is empty and
the EXTRA bytes are still pending in the stream, not returned as the tail
the claim demands. -/
theorem C2_byte_by_byte_counterexample :
    rusPoll 30 (read_until_separator byteByByteScript crlf2) =
      (.ready (extraBytes.map (fun b => ReadEvent.chunk [b])) headBytes [],
        RUSState.empty) ∧
    ([] : List Byte) ≠ extraBytes := by
  refine ⟨by decide, by decide⟩

/-- Witness for C2: the whole request delivered as a single chunk resolves
with head GET /x HTTP/1.1 CRLF CRLF and tail EXTRA, and the split
properties of the amended claim hold of that run. -/
theorem C2_witness :
    rusLoop 5 crlf2 [] [ReadEvent.chunk httpReqBytes] =
      (.ready [] headBytes extraBytes, RUSState.empty) ∧
    (∃ pos,
      findBytes (headBytes ++ extraBytes) crlf2 = some pos ∧
      headBytes = (headBytes ++ extraBytes).take (pos + crlf2.length) ∧
      extraBytes = (headBytes ++ extraBytes).drop (pos + crlf2.length) ∧
      matchAt (headBytes ++ extraBytes) crlf2 pos ∧
      (∀ q, q < pos → ¬ matchAt (headBytes ++ extraBytes) crlf2 q) ∧
      (∃ d, headBytes ++ extraBytes = [] ++ d) ∧
      (∃ ext, (headBytes ++ extraBytes) ++ ext =
        [] ++ scriptBytes [ReadEvent.chunk httpReqBytes])) :=
  ⟨by decide,
    C2_delimiter_split 5 crlf2 [] [ReadEvent.chunk httpReqBytes] [] headBytes
      extraBytes RUSState.empty (by decide)⟩

/-! ## Claim C6: peek non-destructiveness -/

/-- Claim C6: a successful peek of blen bytes returns exactly the first
blen bytes of the logical stream without changing it; peeking again
returns the identical bytes and leaves the wrapper untouched; and a
subsequent consuming read of m bytes, 0 < m and m at most blen, returns
the first m of those bytes and advances the logical stream by exactly m. -/
theorem C6_peek_nondestructive :
    ∀ (fuel blen : Nat) (st st2 : PeekableReader) (n : Nat) (out : List Byte),
    poll_peek fuel blen st = (.ready n out, st2) →
    n = blen ∧
    out = (logicalStream st).take blen ∧
    logicalStream st2 = logicalStream st ∧
    (∀ f2, poll_peek (f2 + 1) blen st2 = (.ready blen out, st2)) ∧
    (∀ m, 0 < m → m ≤ blen →
      PeekableReader.read st2 m =
        (.ok (out.take m), ⟨st2.inner, st2.peek_buf.drop m⟩) ∧
      logicalStream (PeekableReader.read st2 m).2 = (logicalStream st).drop m) := by
  intro fuel blen st st2 n out h
  obtain ⟨hn, hout, hlen⟩ := poll_peek_ready h
  have hlog : logicalStream st2 = logicalStream st := by
    have hpres := poll_peek_logical fuel blen st
    rw [h] at hpres
    exact hpres
  have houtlog : out = (logicalStream st).take blen := by
    rw [hout, ← hlog]
    simp only [logicalStream]
    rw [List.take_append_of_le_length hlen]
  refine ⟨hn, houtlog, hlog, ?_, ?_⟩
  · intro f2
    rw [poll_peek_already hlen, hout]
  · intro m hm0 hmb
    have hmlen : m ≤ st2.peek_buf.length := le_trans hmb hlen
    have hpb : ¬ st2.peek_buf.length = 0 := by omega
    have hminm : min m blen = m := by omega
    have hmin2 : min st2.peek_buf.length m = m := by omega
    constructor
    · rw [PeekableReader.read, if_neg hpb, hout, List.take_take, hminm, hmin2]
    · rw [PeekableReader.read, if_neg hpb, hmin2, ← hlog]
      simp only [logicalStream]
      rw [List.drop_append_of_le_length hmlen]

/-- Witness for C6: a stream delivering three bytes in one chunk, peeked
for two bytes, re-peeked, then consumed for one byte. -/
theorem C6_witness :
    poll_peek 3 2 ⟨[ReadEvent.chunk [1, 2, 3]], []⟩ =
      (.ready 2 [1, 2], ⟨[ReadEvent.chunk [3]], [1, 2]⟩) ∧
    (2 : Nat) = 2 ∧
    ([1, 2] : List Byte) =
      (logicalStream ⟨[ReadEvent.chunk [1, 2, 3]], []⟩).take 2 ∧
    logicalStream ⟨[ReadEvent.chunk [3]], [1, 2]⟩ =
      logicalStream ⟨[ReadEvent.chunk [1, 2, 3]], []⟩ ∧
    poll_peek 1 2 ⟨[ReadEvent.chunk [3]], [1, 2]⟩ =
      (.ready 2 [1, 2], ⟨[ReadEvent.chunk [3]], [1, 2]⟩) ∧
    PeekableReader.read ⟨[ReadEvent.chunk [3]], [1, 2]⟩ 1 =
      (.ok [1], ⟨[ReadEvent.chunk [3]], [2]⟩) ∧
    logicalStream (PeekableReader.read ⟨[ReadEvent.chunk [3]], [1, 2]⟩ 1).2 =
      (logicalStream ⟨[ReadEvent.chunk [1, 2, 3]], []⟩).drop 1 := by
  have hrun : poll_peek 3 2 ⟨[ReadEvent.chunk [1, 2, 3]], []⟩ =
      (.ready 2 [1, 2], ⟨[ReadEvent.chunk [3]], [1, 2]⟩) := by decide
  have hc := C6_peek_nondestructive 3 2 ⟨[ReadEvent.chunk [1, 2, 3]], []⟩
    ⟨[ReadEvent.chunk [3]], [1, 2]⟩ 2 [1, 2] hrun
  obtain ⟨h1, h2, h3, h4, h5⟩ := hc
  obtain ⟨h6, h7⟩ := h5 1 (by decide) (by decide)
  exact ⟨hrun, rfl, h2, h3, h4 0, h6, h7⟩

/-! ## Claim C7: consuming-read semantics -/

/-- Claim C7: a consuming read serves min of the buffer capacity and the
peek-buffer length bytes from the head of a nonempty peek buffer, removing
exactly those; with an empty peek buffer it delegates directly to the
underlying stream, with short-read semantics either way. -/
theorem C7_consume_read :
    ∀ (st : PeekableReader) (cap : Nat),
    (st.peek_buf ≠ [] →
      PeekableReader.read st cap =
        (.ok (st.peek_buf.take (min st.peek_buf.length cap)),
          ⟨st.inner, st.peek_buf.drop (min st.peek_buf.length cap)⟩)) ∧
    (st.peek_buf = [] → ∀ res inner2, pollRead cap st.inner = (res, inner2) →
      PeekableReader.read st cap =
        ((match res with
          | .ready d => SyncRead.ok d
          | .ioErr k => SyncRead.ioErr k
          | .notReady => SyncRead.ioErr ErrKind.wouldBlock), ⟨inner2, []⟩)) := by
  intro st cap
  constructor
  · intro hne
    rw [PeekableReader.read, if_neg (by simpa using hne)]
  · intro he res inner2 hpr
    rw [PeekableReader.read, if_pos (by simp [he]), hpr]
    cases res <;> simp [he]

/-- Witness for C7: a nonempty peek buffer is served from its head; an
empty peek buffer delegates the read to the inner stream. -/
theorem C7_witness :
    PeekableReader.read ⟨[ReadEvent.chunk [5]], [9, 8]⟩ 1 =
      (.ok [9], ⟨[ReadEvent.chunk [5]], [8]⟩) ∧
    PeekableReader.read ⟨[ReadEvent.chunk [5, 6]], []⟩ 8 =
      (.ok [5, 6], ⟨[], []⟩) :=
  ⟨(C7_consume_read ⟨[ReadEvent.chunk [5]], [9, 8]⟩ 1).1 (by decide),
    (C7_consume_read ⟨[ReadEvent.chunk [5, 6]], []⟩ 8).2 rfl
      (ReadResult.ready [5, 6]) [] (by decide)⟩

/-! ## Claim C8: the peek-buffer invariant -/

theorem PeekableReader_read_drop (st : PeekableReader) (cap : Nat) :
    ∃ nd, (PeekableReader.read st cap).2.peek_buf = st.peek_buf.drop nd := by
  rw [PeekableReader.read]
  by_cases he : st.peek_buf.length = 0
  · refine ⟨0, ?_⟩
    rw [if_pos he]
    rcases hpr : pollRead cap st.inner with ⟨res, inner2⟩
    cases res <;> simp
  · rw [if_neg he]
    exact ⟨_, rfl⟩

theorem PeekableReader_read_len_le (st : PeekableReader) (cap : Nat) :
    (PeekableReader.read st cap).2.peek_buf.length ≤ st.peek_buf.length := by
  obtain ⟨nd, hnd⟩ := PeekableReader_read_drop st cap
  rw [hnd]
  simp

theorem runOps_bound (ops : List PROp) (st : PeekableReader) :
    (runOps st ops).peek_buf.length ≤
      max st.peek_buf.length (maxPeekReq ops) := by
  induction ops generalizing st with
  | nil => simp [runOps]
  | cons op rest ih =>
    rw [runOps]
    cases op with
    | peekOp fuel k =>
      have h1 := poll_peek_bound fuel k st
      have h2 := ih (stepOp st (.peekOp fuel k))
      simp only [stepOp] at h2 ⊢
      simp only [maxPeekReq]
      omega
    | readOp cap =>
      have h1 := PeekableReader_read_len_le st cap
      have h2 := ih (stepOp st (.readOp cap))
      simp only [stepOp] at h2 ⊢
      simp only [maxPeekReq]
      omega

/-- Claim C8: across any sequence of peeks and consuming reads, a peek
only ever appends at the tail of the peek buffer (the old buffer stays a
prefix) and caps its length by the larger of its old length and the
request; a consuming read only ever removes from the head (the new buffer
is a drop of the old); and starting from a fresh wrapper the peek-buffer
length never exceeds the largest peek request issued. -/
theorem C8_peek_buf_invariant :
    (∀ fuel k st, st.peek_buf <+: (poll_peek fuel k st).2.peek_buf) ∧
    (∀ fuel k st,
      (poll_peek fuel k st).2.peek_buf.length ≤ max st.peek_buf.length k) ∧
    (∀ st cap, ∃ nd,
      (PeekableReader.read st cap).2.peek_buf = st.peek_buf.drop nd) ∧
    (∀ ops inner0,
      (runOps (PeekableReader.new inner0) ops).peek_buf.length ≤
        maxPeekReq ops) := by
  refine ⟨poll_peek_extends, poll_peek_bound, PeekableReader_read_drop, ?_⟩
  intro ops inner0
  have hb := runOps_bound ops (PeekableReader.new inner0)
  simpa [PeekableReader.new] using hb

/-! ## Claim C9: the duplex composer forwards and holds no state -/

/-- Claim C9: every operation of the composer delegates to exactly one
half and returns the other half unchanged: reads and read_buf run on the
read half and leave the write half untouched, while write, flush,
shutdown and write_buf run on the write half and leave the read half
untouched; the composer itself is just the pair of the two halves. -/
theorem C9_duplex_forwarding :
    ∀ (R W α β : Type) (s : AsyncReadWriter R W) (rf : R → α × R)
      (wf ff sf : W → β × W) (rbf : R → α × R) (wbf : W → β × W),
    AsyncReadWriter.read rf s = ((rf s.r).1, ⟨(rf s.r).2, s.w⟩) ∧
    AsyncReadWriter.write wf s = ((wf s.w).1, ⟨s.r, (wf s.w).2⟩) ∧
    AsyncReadWriter.flush ff s = ((ff s.w).1, ⟨s.r, (ff s.w).2⟩) ∧
    AsyncReadWriter.shutdown sf s = ((sf s.w).1, ⟨s.r, (sf s.w).2⟩) ∧
    AsyncReadWriter.read_buf rbf s = ((rbf s.r).1, ⟨(rbf s.r).2, s.w⟩) ∧
    AsyncReadWriter.write_buf wbf s = ((wbf s.w).1, ⟨s.r, (wbf s.w).2⟩) := by
  intro R W α β s rf wf ff sf rbf wbf
  exact ⟨rfl, rfl, rfl, rfl, rfl, rfl⟩

end RsNova
